import Mathlib

/-!
Verification of the category-rewrite script (`scripts/archive/update_categories.py`).

The script applies an ordered table of literal text substitutions
(`CATEGORY_REPLACEMENTS`, applied with `re.sub` where every pattern is a
regex-escaped literal, hence plain leftmost non-overlapping find/replace)
to a file's content, and, when the content changed, inserts an import of
the `CATEGORIES` constant after the first line starting with `import `
(or at the top of the file when no such line exists).

File content is modelled as `List Char`; a file path is modelled by its
list of segments (`Path(filepath).parts`), which is all the script ever
inspects of a path.
-/

namespace UpdateCategories

/-- Helper for `replaceAll`, structurally recursive on the scanned list.
A positive skip counter means the scanner is inside the remainder of a
match whose replacement has already been emitted, so the character is
consumed without being output. -/
def replAux (p r : List Char) : List Char → Nat → List Char
  | [], _ => []
  | _ :: t, k + 1 => replAux p r t k
  | c :: t, 0 =>
    if p ≠ [] ∧ p.isPrefixOf (c :: t) then r ++ replAux p r t (p.length - 1)
    else c :: replAux p r t 0

/-- Leftmost, non-overlapping replacement of every occurrence of the literal
pattern `p` by `r` in `s`: the behaviour of Python `re.sub(pattern, repl, s)`
when `pattern` is a regex-escaped (hence literal, and in this script always
nonempty) string.  An empty `p` is mapped to the identity. -/
def replaceAll (p r s : List Char) : List Char := replAux p r s 0

theorem replAuxSkip (p r : List Char) :
    ∀ (t : List Char) (k : Nat), replAux p r t k = replAux p r (t.drop k) 0 := by
  intro t
  induction t with
  | nil => intro k; rw [List.drop_nil]; cases k <;> rfl
  | cons c t ih =>
    intro k
    match k with
    | 0 => rfl
    | k + 1 => rw [List.drop_succ_cons, show replAux p r (c :: t) (k + 1) =
        replAux p r t k from rfl, ih k]

/-- The recursion scheme of the replacement scan: a string is consumed
either by a whole match at its head or by one unmatched character. -/
theorem replaceAllRec (p : List Char) (motive : List Char → Prop)
    (case1 : motive [])
    (case2 : ∀ (c : Char) (t : List Char), (p ≠ [] ∧ p.isPrefixOf (c :: t) = true) →
      motive (List.drop (p.length - 1) t) → motive (c :: t))
    (case3 : ∀ (c : Char) (t : List Char), ¬(p ≠ [] ∧ p.isPrefixOf (c :: t) = true) →
      motive t → motive (c :: t)) : ∀ s, motive s := by
  have H : ∀ (n : Nat) (s : List Char), s.length ≤ n → motive s := by
    intro n
    induction n with
    | zero =>
      intro s h
      have hs : s = [] := List.length_eq_zero.mp (by omega)
      rw [hs]
      exact case1
    | succ n ih =>
      intro s h
      match s with
      | [] => exact case1
      | c :: t =>
        by_cases hm : p ≠ [] ∧ p.isPrefixOf (c :: t) = true
        · refine case2 c t hm (ih _ ?_)
          have hd := List.length_drop (p.length - 1) t
          simp only [List.length_cons] at h
          omega
        · exact case3 c t hm (ih t (by simp only [List.length_cons] at h; omega))
  exact fun s => H s.length s le_rfl

/-- The ordered substitution table `CATEGORY_REPLACEMENTS` of the script
(a Python dict, iterated in insertion order). -/
def CATEGORY_REPLACEMENTS : List (List Char × List Char) :=
  [ ("=== \"protein\"".toList, "=== CATEGORIES.protein".toList),
    ("=== \"carbs\"".toList, "=== CATEGORIES.carbs".toList),
    ("=== \"vegetables\"".toList, "=== CATEGORIES.vegetables".toList),
    ("=== \"fruits\"".toList, "=== CATEGORIES.fruits".toList),
    ("=== \"dairy\"".toList, "=== CATEGORIES.dairy".toList),
    ("=== \"fats\"".toList, "=== CATEGORIES.fats".toList),
    ("=== \"grains\"".toList, "=== CATEGORIES.grains".toList),
    ("=== \"legumes\"".toList, "=== CATEGORIES.legumes".toList),
    ("=== \"snacks\"".toList, "=== CATEGORIES.snacks".toList),
    ("=== \"supplements\"".toList, "=== CATEGORIES.supplements".toList),
    ("=== \"others\"".toList, "=== CATEGORIES.others".toList),
    ("!== \"protein\"".toList, "!== CATEGORIES.protein".toList),
    ("!== \"carbs\"".toList, "!== CATEGORIES.carbs".toList),
    ("!== \"vegetables\"".toList, "!== CATEGORIES.vegetables".toList),
    ("!== \"fruits\"".toList, "!== CATEGORIES.fruits".toList),
    ("!== \"dairy\"".toList, "!== CATEGORIES.dairy".toList),
    ("!== \"fats\"".toList, "!== CATEGORIES.fats".toList),
    ("!== \"grains\"".toList, "!== CATEGORIES.grains".toList),
    ("!== \"legumes\"".toList, "!== CATEGORIES.legumes".toList),
    ("!== \"snacks\"".toList, "!== CATEGORIES.snacks".toList),
    ("!== \"supplements\"".toList, "!== CATEGORIES.supplements".toList),
    ("!== \"others\"".toList, "!== CATEGORIES.others".toList),
    ("[\"protein\", \"carbs\", \"vegetables\", \"fruits\", \"dairy\", \"fats\", \"grains\", \"legumes\", \"snacks\", \"supplements\", \"others\"]".toList,
     "[CATEGORIES.protein, CATEGORIES.carbs, CATEGORIES.vegetables, CATEGORIES.fruits, CATEGORIES.dairy, CATEGORIES.fats, CATEGORIES.grains, CATEGORIES.legumes, CATEGORIES.snacks, CATEGORIES.supplements, CATEGORIES.others]".toList),
    ("(\"protein\")".toList, "(CATEGORIES.protein)".toList),
    ("(\"carbs\")".toList, "(CATEGORIES.carbs)".toList),
    ("(\"vegetables\")".toList, "(CATEGORIES.vegetables)".toList),
    ("(\"fruits\")".toList, "(CATEGORIES.fruits)".toList),
    ("(\"dairy\")".toList, "(CATEGORIES.dairy)".toList),
    ("(\"fats\")".toList, "(CATEGORIES.fats)".toList),
    ("(\"grains\")".toList, "(CATEGORIES.grains)".toList),
    ("(\"legumes\")".toList, "(CATEGORIES.legumes)".toList),
    ("(\"snacks\")".toList, "(CATEGORIES.snacks)".toList),
    ("(\"supplements\")".toList, "(CATEGORIES.supplements)".toList),
    ("(\"others\")".toList, "(CATEGORIES.others)".toList) ]

/-- One step of the `for pattern, replacement in CATEGORY_REPLACEMENTS.items()`
loop of `update_file`: `content = re.sub(pattern, replacement, content)`. -/
def applyRule (s : List Char) (rule : List Char × List Char) : List Char :=
  replaceAll rule.1 rule.2 s

/-- The whole replacement loop of `update_file`: apply every rule of the
table, in table order, each to the output of the previous one. -/
def rewriteAll (s : List Char) : List Char :=
  CATEGORY_REPLACEMENTS.foldl applyRule s

/-- `IMPORT_STATEMENT` of the script (one level up). -/
def IMPORT_STATEMENT : List Char :=
  ("import " ++ "{ CATEGORIES } from \"../core/constants/categories\";\n").toList

/-- `IMPORT_STATEMENT_NESTED` of the script (two levels up). -/
def IMPORT_STATEMENT_NESTED : List Char :=
  ("import " ++ "{ CATEGORIES } from \"../../core/constants/categories\";\n").toList

/-- `IMPORT_STATEMENT_DEEP` of the script (three levels up). -/
def IMPORT_STATEMENT_DEEP : List Char :=
  ("import " ++ "{ CATEGORIES } from \"../../../core/constants/categories\";\n").toList

/-- `get_import_statement(filepath)`: selects the relative import form from
the segments (`Path(filepath).parts`) of the file's path. -/
def get_import_statement (parts : List String) : List Char :=
  if "tests" ∈ parts then IMPORT_STATEMENT_NESTED
  else if "logic" ∈ parts ∨ "utils" ∈ parts ∨ "export" ∈ parts ∨
      "premium" ∈ parts ∨ "storage" ∈ parts then IMPORT_STATEMENT_NESTED
  else if "components" ∈ parts ∨ "pages" ∈ parts then IMPORT_STATEMENT_DEEP
  else IMPORT_STATEMENT

/-- Python substring test `p in s` (`str.__contains__`). -/
def isSub (p s : List Char) : Bool :=
  s.tails.any fun t => p.isPrefixOf t

/-- Python `content.split('\n')`. -/
def linesOf : List Char → List (List Char)
  | [] => [[]]
  | c :: t =>
    if c = '\n' then [] :: linesOf t
    else
      match linesOf t with
      | [] => [[c]]
      | l :: ls => (c :: l) :: ls

/-- Python `'\n'.join(lines)`. -/
def joinLines : List (List Char) → List Char
  | [] => []
  | [l] => l
  | l :: ls => l ++ '\n' :: joinLines ls

/-- Python `line.rstrip()`: strip trailing whitespace. -/
def rstrip (l : List Char) : List Char :=
  (l.reverse.dropWhile fun c => c.isWhitespace).reverse

/-- Python `line.startswith('import ')`. -/
def startsImportKw (l : List Char) : Bool := ("import " ++ "").toList.isPrefixOf l

/-- The insertion loop of `add_import_if_needed`: walk the lines, and after
the first line starting with `import ` insert `stmt`; `none` when no line
starts with `import `. -/
def insertAfterFirstImport (stmt : List Char) : List (List Char) → Option (List (List Char))
  | [] => none
  | l :: ls =>
    if startsImportKw l then some (l :: stmt :: ls)
    else (insertAfterFirstImport stmt ls).map fun ls2 => l :: ls2

/-- The literal `'CATEGORIES'` the script searches for. -/
def catIdent : List Char := "CATEGORIES".toList

/-- The canonical import spelling `'import { CATEGORIES }'` whose presence
suppresses insertion. -/
def canonicalImport : List Char := ("import " ++ "{ CATEGORIES }").toList

/-- `add_import_if_needed(content, filepath)` of the script. -/
def add_import_if_needed (content : List Char) (parts : List String) : List Char :=
  if isSub catIdent content && !(isSub canonicalImport content) then
    match insertAfterFirstImport (rstrip (get_import_statement parts)) (linesOf content) with
    | some ls => joinLines ls
    | none => get_import_statement parts ++ content
  else content

/-- Outcome of one `update_file` call: the returned boolean, the content
written back (if any), and the reported error (if any). -/
structure FileOutcome where
  updated : Bool
  wrote : Option (List Char)
  errorReported : Option String
deriving DecidableEq, Repr

/-- The body of the `try:` block of `update_file`, in the `Except` monad:
read the file, run the replacement loop, and only when the content changed
add the import and write the file back.  A read or write failure raises. -/
def update_file_attempt (readRes : Except String (List Char))
    (writeRes : List Char → Except String Unit) (parts : List String) :
    Except String (Bool × Option (List Char)) := do
  let content ← readRes
  let newContent := rewriteAll content
  if newContent ≠ content then
    let final := add_import_if_needed newContent parts
    match writeRes final with
    | Except.ok _ => return (true, some final)
    | Except.error e => throw e
  else
    return (false, none)

/-- `update_file(filepath)`: the `try/except` wrapper.  Any raised error is
caught, reported, and the function returns `False`. -/
def update_file (readRes : Except String (List Char))
    (writeRes : List Char → Except String Unit) (parts : List String) : FileOutcome :=
  match update_file_attempt readRes writeRes parts with
  | Except.ok (b, w) => ⟨b, w, none⟩
  | Except.error e => ⟨false, none, some e⟩

/-- One candidate file fed to the batch loop of `main`: its read result,
its write behaviour, and its path segments. -/
structure BatchFile where
  readRes : Except String (List Char)
  writeRes : List Char → Except String Unit
  parts : List String

/-- The loop of `main` over the candidate files: every file is processed
by `update_file`, independently of earlier failures. -/
def runBatch (files : List BatchFile) : List FileOutcome :=
  files.map fun f => update_file f.readRes f.writeRes f.parts

/-- The final count `updated` printed by `main`. -/
def updatedCount (files : List BatchFile) : Nat :=
  (runBatch files).countP fun o => o.updated

/-! ### Basic facts about `replaceAll` -/

theorem dropAux {p : List Char} (h : p ≠ []) (c : Char) (t : List Char) :
    List.drop (p.length - 1) t = List.drop p.length (c :: t) := by
  obtain ⟨a, as, rfl⟩ := List.exists_cons_of_ne_nil h
  simp [List.drop_succ_cons]

theorem replaceAll_nil (p r : List Char) : replaceAll p r [] = [] := rfl

theorem replAux_cons0 (p r : List Char) (c : Char) (t : List Char) :
    replAux p r (c :: t) 0 =
      if p ≠ [] ∧ p.isPrefixOf (c :: t) then r ++ replAux p r t (p.length - 1)
      else c :: replAux p r t 0 := rfl

theorem replaceAll_cons_pos {p : List Char} (r : List Char) {c : Char} {t : List Char}
    (h1 : p ≠ []) (h2 : p.isPrefixOf (c :: t)) :
    replaceAll p r (c :: t) = r ++ replaceAll p r (List.drop p.length (c :: t)) := by
  have h := replAux_cons0 p r c t
  rw [if_pos ⟨h1, h2⟩, replAuxSkip p r t, dropAux h1 c t] at h
  exact h

theorem replaceAll_cons_neg {p : List Char} (r : List Char) {c : Char} {t : List Char}
    (h : ¬(p ≠ [] ∧ p.isPrefixOf (c :: t) = true)) :
    replaceAll p r (c :: t) = c :: replaceAll p r t := by
  have hh := replAux_cons0 p r c t
  rw [if_neg h] at hh
  exact hh

theorem prefAppendCases {w a b : List Char} (h : w <+: a ++ b) :
    w <+: a ∨ (a <+: w ∧ w.drop a.length <+: b) := by
  by_cases hl : w.length ≤ a.length
  · exact Or.inl ((List.isPrefix_append_of_length hl).mp h)
  · right
    obtain ⟨v, hv⟩ := h
    have h1 : (w ++ v).take a.length = (a ++ b).take a.length := by rw [hv]
    rw [List.take_append_of_le_length (by omega), List.take_left] at h1
    have h2 : (w ++ v).drop a.length = (a ++ b).drop a.length := by rw [hv]
    rw [List.drop_append_of_le_length (by omega), List.drop_left] at h2
    exact ⟨List.prefix_iff_eq_take.mpr h1.symm, ⟨v, h2⟩⟩

theorem infixAppendCases {q : List Char} : ∀ {a b : List Char}, q <:+: a ++ b →
    q <:+: a ∨ q <:+: b ∨
      ∃ k, 0 < k ∧ k < q.length ∧ q.take k <:+ a ∧ q.drop k <+: b := by
  intro a
  induction a with
  | nil => intro b h; exact Or.inr (Or.inl (by simpa using h))
  | cons c a ih =>
    intro b h
    rcases List.infix_cons_iff.mp h with hpre | hinf
    · rcases prefAppendCases (a := c :: a) (b := b) hpre with h1 | ⟨h2, h3⟩
      · exact Or.inl h1.isInfix
      · by_cases hq : q.length ≤ (c :: a).length
        · have he : c :: a = q := List.IsPrefix.eq_of_length_le h2 hq
          exact Or.inl (by rw [← he])
        · refine Or.inr (Or.inr ⟨(c :: a).length, by simp, by omega, ?_, h3⟩)
          have ht : q.take (c :: a).length = c :: a :=
            ((List.prefix_iff_eq_take.mp h2).symm)
          rw [ht]
    · rcases ih hinf with h1 | h2 | ⟨k, hk0, hkq, hka, hkb⟩
      · exact Or.inl (List.infix_cons h1)
      · exact Or.inr (Or.inl h2)
      · exact Or.inr (Or.inr ⟨k, hk0, hkq, hka.trans (List.suffix_cons c a), hkb⟩)

theorem isSub_iff {p s : List Char} : isSub p s = true ↔ p <:+: s := by
  unfold isSub
  rw [List.any_eq_true]
  constructor
  · rintro ⟨t, ht, hp⟩
    rw [List.mem_tails] at ht
    rw [List.isPrefixOf_iff_prefix] at hp
    exact hp.isInfix.trans ht.isInfix
  · intro h
    obtain ⟨t, h1, h2⟩ := List.infix_iff_prefix_suffix.mp h
    exact ⟨t, (List.mem_tails _ _).mpr h2, List.isPrefixOf_iff_prefix.mpr h1⟩

theorem notInfixOfMemNotMem {x y : List Char} {c : Char} (hc : c ∈ x) (hnc : c ∉ y) :
    ¬ x <:+: y :=
  fun h => hnc (h.mem hc)

/-- A string with no occurrence of the pattern is left unchanged. -/
theorem replaceAllEqSelf {p : List Char} (r : List Char) :
    ∀ {s : List Char}, ¬ p <:+: s → replaceAll p r s = s := by
  intro s
  induction s using replaceAllRec p with
  | case1 => intro _; exact replaceAll_nil p r
  | case2 c t hc ih =>
    intro hs
    exact absurd (List.isPrefixOf_iff_prefix.mp hc.2).isInfix hs
  | case3 c t hc ih =>
    intro hs
    rw [replaceAll_cons_neg r hc, ih fun h => hs (List.infix_cons h)]

/-- If a replacement pass changed the string at all then a copy of the
replacement text occurs in the result. -/
theorem changedInfixRepl {p r : List Char} :
    ∀ {s : List Char}, replaceAll p r s ≠ s → r <:+: replaceAll p r s := by
  intro s
  induction s using replaceAllRec p with
  | case1 => intro h; exact absurd (replaceAll_nil p r) h
  | case2 c t hc ih =>
    intro _
    rw [replaceAll_cons_pos r hc.1 hc.2]
    exact ⟨[], replaceAll p r (List.drop p.length (c :: t)), by simp⟩
  | case3 c t hc ih =>
    intro h
    rw [replaceAll_cons_neg r hc] at h ⊢
    have ht : replaceAll p r t ≠ t := fun he => h (by rw [he])
    exact List.infix_cons (ih ht)

/-! ### No pattern occurrence survives or is created by the rewrite pass

The key combinatorial facts: under side conditions on a pattern `q` and a
replacement text `r` (checked below, by computation, for every pair of the
table), a replacement pass `replaceAll p r` never creates a new occurrence
of `q`, and `replaceAll p r` leaves no occurrence of `p` itself. -/

/-- `true` iff no nonempty suffix of `x` is a prefix of `y`. -/
def noTailPref (x y : List Char) : Bool :=
  x.tails.all fun w => w.isEmpty || !(w.isPrefixOf y)

theorem noTailPrefProp {x y : List Char} (h : noTailPref x y = true) :
    ∀ w, w <:+ x → w ≠ [] → ¬ w <+: y := by
  intro w hw hne hp
  rw [noTailPref, List.all_eq_true] at h
  have h2 := h w ((List.mem_tails _ _).mpr hw)
  rw [Bool.or_eq_true] at h2
  rcases h2 with h2 | h2
  · exact hne (List.isEmpty_iff.mp h2)
  · rw [Bool.not_eq_true', ← Bool.not_eq_true, List.isPrefixOf_iff_prefix] at h2
    exact h2 hp

/-- `true` iff some character of `x` does not occur in `y` (hence `x` cannot
be an infix of `y`). -/
def hasExtraChar (x y : List Char) : Bool :=
  x.any fun c => !(y.contains c)

theorem notInfixOfExtra {x y : List Char} (h : hasExtraChar x y = true) : ¬ x <:+: y := by
  rw [hasExtraChar, List.any_eq_true] at h
  obtain ⟨c, hc, hcy⟩ := h
  rw [Bool.not_eq_true', ← Bool.not_eq_true] at hcy
  exact notInfixOfMemNotMem hc (by simpa using hcy)

/-- The side conditions relating a pattern `q` to a replacement text `r`. -/
def sideOK (q r : List Char) : Bool :=
  hasExtraChar q r && hasExtraChar r q && noTailPref r q && noTailPref q r

theorem sideOKProps {q r : List Char} (h : sideOK q r = true) :
    ¬ q <:+: r ∧ (∀ w, w <:+ r → w ≠ [] → ¬ w <+: q) ∧
      (∀ w, w <:+ q → w ≠ [] → ¬ w <+: r) ∧ ¬ r <:+: q := by
  rw [sideOK, Bool.and_eq_true, Bool.and_eq_true, Bool.and_eq_true] at h
  exact ⟨notInfixOfExtra h.1.1.1, noTailPrefProp h.1.2, noTailPrefProp h.2,
    notInfixOfExtra h.1.1.2⟩

/-- A replacement pass does not create new "suffix of `q` at the front"
alignments: if `q.drop k` is a prefix of the output, it already was a prefix
of the input. -/
theorem suffixPrefPreserved {q p r : List Char}
    (h3 : ∀ w, w <:+ q → w ≠ [] → ¬ w <+: r) (h4 : ¬ r <:+: q) :
    ∀ {s : List Char} {k : Nat}, 0 < k → k < q.length →
      q.drop k <+: replaceAll p r s → q.drop k <+: s := by
  intro s
  induction s using replaceAllRec p with
  | case1 =>
    intro k hk0 hkq h
    rw [replaceAll_nil] at h
    have hne : q.drop k ≠ [] := by rw [Ne, List.drop_eq_nil_iff]; omega
    exact absurd (List.prefix_nil.mp h) hne
  | case2 c t hc ih =>
    intro k hk0 hkq h
    rw [replaceAll_cons_pos r hc.1 hc.2] at h
    rcases prefAppendCases h with h1 | ⟨h2, _⟩
    · exact absurd h1
        (h3 (q.drop k) (List.drop_suffix k q) (by rw [Ne, List.drop_eq_nil_iff]; omega))
    · exact absurd (h2.isInfix.trans (List.drop_suffix k q).isInfix) h4
  | case3 c t hc ih =>
    intro k hk0 hkq h
    rw [replaceAll_cons_neg r hc] at h
    have hd : q.drop k = q[k] :: q.drop (k + 1) := List.drop_eq_getElem_cons hkq
    rw [hd] at h ⊢
    rw [List.cons_prefix_cons] at h
    obtain ⟨hhead, htail⟩ := h
    by_cases hk1 : k + 1 < q.length
    · exact List.cons_prefix_cons.mpr ⟨hhead, ih (by omega) hk1 htail⟩
    · have hnil : q.drop (k + 1) = [] := by rw [List.drop_eq_nil_iff]; omega
      rw [hnil]
      exact List.cons_prefix_cons.mpr ⟨hhead, List.nil_prefix⟩

/-- After `replaceAll p r`, no occurrence of `p` remains. -/
theorem noPatternAfter {p r : List Char} (hp : p ≠ [])
    (h1 : ¬ p <:+: r) (h2 : ∀ w, w <:+ r → w ≠ [] → ¬ w <+: p)
    (h3 : ∀ w, w <:+ p → w ≠ [] → ¬ w <+: r) (h4 : ¬ r <:+: p) :
    ∀ {s : List Char}, ¬ p <:+: replaceAll p r s := by
  intro s
  induction s using replaceAllRec p with
  | case1 =>
    rw [replaceAll_nil]
    intro h
    exact hp (List.eq_nil_of_infix_nil h)
  | case2 c t hc ih =>
    rw [replaceAll_cons_pos r hc.1 hc.2]
    intro h
    rcases infixAppendCases h with ha | hb | ⟨k, hk0, hkq, hka, hkb⟩
    · exact h1 ha
    · rw [← dropAux hc.1 c t] at hb
      exact ih hb
    · exact h2 (p.take k) hka
        (by rw [Ne, List.take_eq_nil_iff]; push_neg; exact ⟨by omega, hp⟩)
        (List.take_prefix k p)
  | case3 c t hc ih =>
    rw [replaceAll_cons_neg r hc]
    intro h
    rcases List.infix_cons_iff.mp h with hpre | hinf
    · obtain ⟨a, as, ha⟩ := List.exists_cons_of_ne_nil hp
      rw [ha, List.cons_prefix_cons] at hpre
      obtain ⟨hac, htail⟩ := hpre
      have hpc : p.isPrefixOf (c :: t) = true := by
        rw [List.isPrefixOf_iff_prefix, ha, hac]
        by_cases has : as = []
        · rw [has]; exact List.cons_prefix_cons.mpr ⟨rfl, List.nil_prefix⟩
        · have hlen : 1 < p.length := by
            rw [ha]; simp only [List.length_cons]
            have := List.length_pos.mpr has; omega
          have hdp : p.drop 1 <+: replaceAll p r t := by rw [ha]; simpa using htail
          have := suffixPrefPreserved h3 h4 one_pos hlen hdp
          rw [ha] at this
          exact List.cons_prefix_cons.mpr ⟨rfl, by simpa using this⟩
      exact hc ⟨hp, hpc⟩
    · exact ih hinf

/-- A replacement pass creates no new occurrence of a pattern `q`
satisfying the side conditions w.r.t. the replacement text `r`. -/
theorem noNewOccurrence {q p r : List Char}
    (h1 : ¬ q <:+: r) (h2 : ∀ w, w <:+ r → w ≠ [] → ¬ w <+: q)
    (h3 : ∀ w, w <:+ q → w ≠ [] → ¬ w <+: r) (h4 : ¬ r <:+: q) :
    ∀ {s : List Char}, ¬ q <:+: s → ¬ q <:+: replaceAll p r s := by
  intro s
  induction s using replaceAllRec p with
  | case1 => intro hs; rw [replaceAll_nil]; exact hs
  | case2 c t hc ih =>
    intro hs
    rw [replaceAll_cons_pos r hc.1 hc.2]
    intro h
    rcases infixAppendCases h with ha | hb | ⟨k, hk0, hkq, hka, hkb⟩
    · exact h1 ha
    · have hsd : ¬ q <:+: List.drop (p.length - 1) t := by
        rw [dropAux hc.1 c t]
        exact fun hh => hs (hh.trans (List.drop_suffix _ _).isInfix)
      rw [← dropAux hc.1 c t] at hb
      exact ih hsd hb
    · exact h2 (q.take k) hka
        (by rw [Ne, List.take_eq_nil_iff]; push_neg
            exact ⟨by omega, List.length_pos.mp (by omega)⟩)
        (List.take_prefix k q)
  | case3 c t hc ih =>
    intro hs
    rw [replaceAll_cons_neg r hc]
    intro h
    rcases List.infix_cons_iff.mp h with hpre | hinf
    · cases q with
      | nil => exact hs ⟨[], c :: t, rfl⟩
      | cons a q1 =>
        rw [List.cons_prefix_cons] at hpre
        obtain ⟨hac, htail⟩ := hpre
        by_cases hq1 : q1 = []
        · apply hs
          rw [hq1, hac]
          exact (List.cons_prefix_cons.mpr ⟨rfl, List.nil_prefix⟩).isInfix
        · have hlen : 1 < (a :: q1).length := by
            simp only [List.length_cons]
            have := List.length_pos.mpr hq1; omega
          have hpt := suffixPrefPreserved h3 h4 (s := t) one_pos hlen
            (by simpa using htail)
          apply hs
          rw [hac]
          exact (List.cons_prefix_cons.mpr ⟨rfl, by simpa using hpt⟩).isInfix
    · exact ih (fun hh => hs (List.infix_cons hh)) hinf

/-! ### The side conditions hold for every pattern/replacement pair of the table -/

/-- Computed check: every pattern of the table satisfies the side conditions
against every replacement text of the table, and no pattern is empty. -/
def tableOK : Bool :=
  (CATEGORY_REPLACEMENTS.all fun ruleQ =>
    CATEGORY_REPLACEMENTS.all fun ruleR => sideOK ruleQ.1 ruleR.2) &&
  (CATEGORY_REPLACEMENTS.all fun rule => !rule.1.isEmpty)

set_option maxRecDepth 10000 in
theorem tableOK_holds : tableOK = true := by decide

theorem tableOK_sideOK :
    ∀ r1 ∈ CATEGORY_REPLACEMENTS, ∀ r2 ∈ CATEGORY_REPLACEMENTS,
      sideOK r1.1 r2.2 = true := by
  have h := tableOK_holds
  rw [tableOK, Bool.and_eq_true, List.all_eq_true] at h
  intro r1 h1 r2 h2
  have := h.1 r1 h1
  rw [List.all_eq_true] at this
  exact this r2 h2

theorem tableOK_ne_nil : ∀ rule ∈ CATEGORY_REPLACEMENTS, rule.1 ≠ [] := by
  have h := tableOK_holds
  rw [tableOK, Bool.and_eq_true, List.all_eq_true, List.all_eq_true] at h
  intro rule hr
  have := h.2 rule hr
  simpa using this

/-! ### Folding the rule table -/

theorem foldPreservesNoOcc {q : List Char} :
    ∀ (rs : List (List Char × List Char)) (x : List Char),
      (∀ rule ∈ rs, sideOK q rule.2 = true) → ¬ q <:+: x →
        ¬ q <:+: rs.foldl applyRule x := by
  intro rs
  induction rs with
  | nil => intro x _ hx; exact hx
  | cons r0 rest ih =>
    intro x hall hx
    rw [List.foldl_cons]
    obtain ⟨c1, c2, c3, c4⟩ := sideOKProps (hall r0 (List.mem_cons_self r0 rest))
    exact ih (applyRule x r0) (fun rule hr => hall rule (List.mem_cons_of_mem r0 hr))
      (noNewOccurrence c1 c2 c3 c4 hx)

theorem foldEstablishes :
    ∀ (rs : List (List Char × List Char)) (x : List Char),
      (∀ r1 ∈ rs, ∀ r2 ∈ rs, sideOK r1.1 r2.2 = true) →
      (∀ rule ∈ rs, rule.1 ≠ []) →
      ∀ rule ∈ rs, ¬ rule.1 <:+: rs.foldl applyRule x := by
  intro rs
  induction rs with
  | nil => intro x _ _ rule hr; exact absurd hr (List.not_mem_nil rule)
  | cons r0 rest ih =>
    intro x hall hne rule hr
    rw [List.foldl_cons]
    rcases List.mem_cons.mp hr with rfl | hmem
    · obtain ⟨c1, c2, c3, c4⟩ := sideOKProps
        (hall rule (List.mem_cons_self rule rest) rule (List.mem_cons_self rule rest))
      have hA : ¬ rule.1 <:+: applyRule x rule :=
        noPatternAfter (hne rule (List.mem_cons_self rule rest)) c1 c2 c3 c4
      exact foldPreservesNoOcc rest (applyRule x rule)
        (fun r2 h2 => hall rule (List.mem_cons_self rule rest) r2 (List.mem_cons_of_mem rule h2))
        hA
    · exact ih (applyRule x r0)
        (fun r1 h1 r2 h2 =>
          hall r1 (List.mem_cons_of_mem r0 h1) r2 (List.mem_cons_of_mem r0 h2))
        (fun r h1 => hne r (List.mem_cons_of_mem r0 h1)) rule hmem

theorem foldIdOfNoOcc :
    ∀ (rs : List (List Char × List Char)) (x : List Char),
      (∀ rule ∈ rs, ¬ rule.1 <:+: x) → rs.foldl applyRule x = x := by
  intro rs
  induction rs with
  | nil => intro x _; rfl
  | cons r0 rest ih =>
    intro x h
    rw [List.foldl_cons]
    have h0 : applyRule x r0 = x := replaceAllEqSelf r0.2 (h r0 (List.mem_cons_self r0 rest))
    rw [h0]
    exact ih x fun rule hr => h rule (List.mem_cons_of_mem r0 hr)

/-- No pattern of the table occurs in the output of the full rewrite pass. -/
theorem rewriteAllNoPattern (s : List Char) :
    ∀ rule ∈ CATEGORY_REPLACEMENTS, ¬ rule.1 <:+: rewriteAll s :=
  foldEstablishes CATEGORY_REPLACEMENTS s tableOK_sideOK tableOK_ne_nil

theorem infixAppendLeft {l y : List Char} (x : List Char) (h : l <:+: y) :
    l <:+: x ++ y := by
  obtain ⟨u, v, rfl⟩ := h
  exact ⟨x ++ u, v, by simp⟩

/-! ### Preservation of disjoint-alphabet substrings -/

/-- A prefix whose characters never occur in the pattern survives a
replacement pass as a prefix. -/
theorem prefixPreservedDisj {t p r : List Char} (hd : ∀ c ∈ t, c ∉ p) :
    ∀ {s : List Char}, t <+: s → t <+: replaceAll p r s := by
  induction t with
  | nil => intro s _; exact List.nil_prefix
  | cons a t1 ih =>
    intro s h
    match s with
    | [] => exact absurd (List.prefix_nil.mp h) (by simp)
    | c :: s' =>
      rw [List.cons_prefix_cons] at h
      obtain ⟨hac, ht1⟩ := h
      have hnotm : ¬(p ≠ [] ∧ p.isPrefixOf (c :: s') = true) := by
        rintro ⟨hp, hpre⟩
        obtain ⟨p0, p1, hp01⟩ := List.exists_cons_of_ne_nil hp
        rw [List.isPrefixOf_iff_prefix, hp01, List.cons_prefix_cons] at hpre
        exact hd a (List.mem_cons_self _ _) (by rw [hp01, hac, ← hpre.1]; exact List.mem_cons_self _ _)
      rw [replaceAll_cons_neg r hnotm]
      exact List.cons_prefix_cons.mpr
        ⟨hac, ih (fun c2 h2 => hd c2 (List.mem_cons_of_mem a h2)) ht1⟩

/-- A substring whose characters never occur in the pattern survives a
replacement pass as a substring. -/
theorem infixPreservedDisj {t p r : List Char} (hd : ∀ c ∈ t, c ∉ p) :
    ∀ {s : List Char}, t <:+: s → t <:+: replaceAll p r s := by
  intro s
  induction s using replaceAllRec p with
  | case1 => rw [replaceAll_nil]; exact id
  | case2 c s' hc ih =>
    intro h
    rw [replaceAll_cons_pos r hc.1 hc.2]
    have hsplit : c :: s' = p ++ List.drop p.length (c :: s') := by
      have := List.prefix_iff_eq_take.mp (List.isPrefixOf_iff_prefix.mp hc.2)
      conv_lhs => rw [← List.take_append_drop p.length (c :: s'), ← this]
    rw [hsplit] at h
    rcases infixAppendCases h with ha | hb | ⟨k, hk0, hkq, hka, hkb⟩
    · match t, hd with
      | [], _ => exact ⟨[], _, rfl⟩
      | a :: t1, hd => exact absurd (ha.mem (List.mem_cons_self _ _)) (hd a (List.mem_cons_self _ _))
    · rw [← dropAux hc.1 c s'] at hb
      rw [← dropAux hc.1 c s']
      exact infixAppendLeft r (ih hb)
    · have hne : t.take k ≠ [] := by
        rw [Ne, List.take_eq_nil_iff]; push_neg
        exact ⟨by omega, List.length_pos.mp (by omega)⟩
      obtain ⟨c0, t0, hc0⟩ := List.exists_cons_of_ne_nil hne
      have hc0t : c0 ∈ t := List.take_subset k t (by rw [hc0]; exact List.mem_cons_self _ _)
      have hc0p : c0 ∈ p := hka.sublist.subset (by rw [hc0]; exact List.mem_cons_self _ _)
      exact absurd hc0p (hd c0 hc0t)
  | case3 c s' hc ih =>
    intro h
    rcases List.infix_cons_iff.mp h with hpre | hinf
    · have hpp := prefixPreservedDisj (r := r) hd hpre
      exact hpp.isInfix
    · rw [replaceAll_cons_neg r hc]
      exact List.infix_cons (ih hinf)

theorem foldInfixPreservedDisj {t : List Char} :
    ∀ (rs : List (List Char × List Char)) (x : List Char),
      (∀ rule ∈ rs, ∀ c ∈ t, c ∉ rule.1) → t <:+: x →
        t <:+: rs.foldl applyRule x := by
  intro rs
  induction rs with
  | nil => intro x _ hx; exact hx
  | cons r0 rest ih =>
    intro x hall hx
    rw [List.foldl_cons]
    exact ih (applyRule x r0) (fun rule hr => hall rule (List.mem_cons_of_mem r0 hr))
      (infixPreservedDisj (hall r0 (List.mem_cons_self r0 rest)) hx)

/-! ### Every replacement text mentions `CATEGORIES`; no pattern does -/

/-- Computed check: every replacement text of the table contains
`CATEGORIES`, and no character of `CATEGORIES` occurs in any pattern. -/
def catOK : Bool :=
  CATEGORY_REPLACEMENTS.all fun rule =>
    isSub catIdent rule.2 && (catIdent.all fun c => !(rule.1.contains c))

theorem catOK_holds : catOK = true := by decide

theorem catOKProps :
    ∀ rule ∈ CATEGORY_REPLACEMENTS,
      catIdent <:+: rule.2 ∧ ∀ c ∈ catIdent, c ∉ rule.1 := by
  have h := catOK_holds
  rw [catOK, List.all_eq_true] at h
  intro rule hr
  have h2 := h rule hr
  rw [Bool.and_eq_true, List.all_eq_true] at h2
  refine ⟨isSub_iff.mp h2.1, fun c hc => ?_⟩
  have h3 := h2.2 c hc
  rw [Bool.not_eq_true'] at h3
  simpa using h3

theorem foldChangedInfixCat :
    ∀ (rs : List (List Char × List Char)) (x : List Char),
      (∀ rule ∈ rs, catIdent <:+: rule.2 ∧ ∀ c ∈ catIdent, c ∉ rule.1) →
      rs.foldl applyRule x = x ∨ catIdent <:+: rs.foldl applyRule x := by
  intro rs
  induction rs with
  | nil => intro x _; exact Or.inl rfl
  | cons r0 rest ih =>
    intro x hall
    rw [List.foldl_cons]
    by_cases hy : applyRule x r0 = x
    · rw [hy]
      rcases ih x (fun rule hr => hall rule (List.mem_cons_of_mem r0 hr)) with h | h
      · exact Or.inl h
      · exact Or.inr h
    · right
      have hr0 := hall r0 (List.mem_cons_self r0 rest)
      have hcat : catIdent <:+: applyRule x r0 :=
        hr0.1.trans (changedInfixRepl hy)
      exact foldInfixPreservedDisj rest (applyRule x r0)
        (fun rule hr => (hall rule (List.mem_cons_of_mem r0 hr)).2) hcat

/-! ### Lines: `split('\n')` and `'\n'.join` -/

theorem joinLines_nil : joinLines [] = [] := rfl

theorem joinLines_single (l : List Char) : joinLines [l] = l := rfl

theorem joinLines_cons₂ (x y : List Char) (zs : List (List Char)) :
    joinLines (x :: y :: zs) = x ++ '\n' :: joinLines (y :: zs) := rfl

theorem linesOf_ne_nil : ∀ (s : List Char), linesOf s ≠ [] := by
  intro s
  induction s with
  | nil => simp [linesOf]
  | cons c t ih =>
    rw [linesOf]
    by_cases hc : c = '\n'
    · simp [hc]
    · simp only [if_neg hc]
      match ht : linesOf t with
      | [] => simp
      | l :: ls => simp

theorem joinLines_linesOf : ∀ (s : List Char), joinLines (linesOf s) = s := by
  intro s
  induction s with
  | nil => rfl
  | cons c t ih =>
    rw [linesOf]
    by_cases hc : c = '\n'
    · rw [if_pos hc, hc]
      match ht : linesOf t with
      | [] => exact absurd ht (linesOf_ne_nil t)
      | l :: ls =>
        rw [joinLines_cons₂]
        rw [ht] at ih
        rw [ih]
        simp
    · rw [if_neg hc]
      match ht : linesOf t with
      | [] => exact absurd ht (linesOf_ne_nil t)
      | [l] =>
        rw [joinLines_single]
        rw [ht, joinLines_single] at ih
        rw [ih]
      | l :: l2 :: ls =>
        rw [joinLines_cons₂]
        rw [ht, joinLines_cons₂] at ih
        rw [List.cons_append, ih]

theorem mem_linesOf_noNL : ∀ (s : List Char), ∀ l ∈ linesOf s, '\n' ∉ l := by
  intro s
  induction s with
  | nil => intro l hl; rw [linesOf] at hl; simp at hl; simp [hl]
  | cons c t ih =>
    intro l hl
    rw [linesOf] at hl
    by_cases hc : c = '\n'
    · rw [if_pos hc] at hl
      rcases List.mem_cons.mp hl with rfl | h
      · simp
      · exact ih l h
    · rw [if_neg hc] at hl
      match ht : linesOf t with
      | [] => exact absurd ht (linesOf_ne_nil t)
      | l0 :: ls =>
        rw [ht] at hl
        rcases List.mem_cons.mp hl with rfl | h
        · intro hmem
          rcases List.mem_cons.mp hmem with h1 | h1
          · exact hc h1.symm
          · exact ih l0 (by rw [ht]; exact List.mem_cons_self _ _) h1
        · exact ih l (by rw [ht]; exact List.mem_cons_of_mem l0 h)

theorem linesOf_noNL : ∀ {s : List Char}, '\n' ∉ s → linesOf s = [s] := by
  intro s
  induction s with
  | nil => intro _; rfl
  | cons c t ih =>
    intro h
    rw [linesOf, if_neg (by intro hc; exact h (by rw [hc]; exact List.mem_cons_self _ _)),
      ih (fun hm => h (List.mem_cons_of_mem c hm))]

theorem linesOf_append_newline : ∀ {a : List Char} (b : List Char), '\n' ∉ a →
    linesOf (a ++ '\n' :: b) = a :: linesOf b := by
  intro a
  induction a with
  | nil => intro b _; rw [List.nil_append, linesOf, if_pos rfl]
  | cons c a1 ih =>
    intro b h
    have hc : c ≠ '\n' := fun hc => h (by rw [hc]; exact List.mem_cons_self _ _)
    rw [List.cons_append, linesOf, if_neg hc, ih b (fun hm => h (List.mem_cons_of_mem c hm))]

theorem linesOf_joinLines : ∀ {xs : List (List Char)}, xs ≠ [] →
    (∀ l ∈ xs, '\n' ∉ l) → linesOf (joinLines xs) = xs := by
  intro xs
  induction xs with
  | nil => intro h _; exact absurd rfl h
  | cons l ls ih =>
    intro _ hfree
    match ls with
    | [] => rw [joinLines_single]; exact linesOf_noNL (hfree l (List.mem_cons_self _ _))
    | l2 :: ls2 =>
      rw [joinLines_cons₂,
        linesOf_append_newline (joinLines (l2 :: ls2)) (hfree l (List.mem_cons_self _ _)),
        ih (by simp) (fun x hx => hfree x (List.mem_cons_of_mem l hx))]

theorem infix_joinLines : ∀ {xs : List (List Char)} {l : List Char}, l ∈ xs →
    l <:+: joinLines xs := by
  intro xs
  induction xs with
  | nil => intro l hl; exact absurd hl (List.not_mem_nil l)
  | cons l0 ls ih =>
    intro l hl
    rcases List.mem_cons.mp hl with rfl | h
    · match ls with
      | [] => rw [joinLines_single]
      | l2 :: ls2 => rw [joinLines_cons₂]; exact ⟨[], '\n' :: joinLines (l2 :: ls2), by simp⟩
    · match ls with
      | [] => exact absurd h (List.not_mem_nil l)
      | l2 :: ls2 =>
        rw [joinLines_cons₂]
        exact infixAppendLeft l0 (infixAppendLeft ['\n'] (ih h))

/-! ### The rewrite pass acts line by line -/

theorem memReplaceAll {p r : List Char} {c : Char} :
    ∀ {s : List Char}, c ∈ replaceAll p r s → c ∈ s ∨ c ∈ r := by
  intro s
  induction s using replaceAllRec p with
  | case1 => rw [replaceAll_nil]; intro h; exact absurd h (List.not_mem_nil c)
  | case2 c0 t hc ih =>
    rw [replaceAll_cons_pos r hc.1 hc.2]
    intro h
    rcases List.mem_append.mp h with h1 | h1
    · exact Or.inr h1
    · rw [← dropAux hc.1 c0 t] at h1
      rcases ih h1 with h2 | h2
      · exact Or.inl (List.mem_cons_of_mem c0 (List.drop_subset _ t h2))
      · exact Or.inr h2
  | case3 c0 t hc ih =>
    rw [replaceAll_cons_neg r hc]
    intro h
    rcases List.mem_cons.mp h with rfl | h1
    · exact Or.inl (List.mem_cons_self _ _)
    · rcases ih h1 with h2 | h2
      · exact Or.inl (List.mem_cons_of_mem c0 h2)
      · exact Or.inr h2

theorem noNLReplaceAll {p r s : List Char} (hs : '\n' ∉ s) (hr : '\n' ∉ r) :
    '\n' ∉ replaceAll p r s := by
  intro h
  rcases memReplaceAll h with h1 | h1
  · exact hs h1
  · exact hr h1

theorem exists_first_nl : ∀ {s : List Char}, '\n' ∈ s →
    ∃ a b, s = a ++ '\n' :: b ∧ '\n' ∉ a := by
  intro s
  induction s with
  | nil => intro h; exact absurd h (List.not_mem_nil _)
  | cons c t ih =>
    intro h
    by_cases hc : c = '\n'
    · exact ⟨[], t, by rw [hc]; rfl, by simp⟩
    · have ht : '\n' ∈ t := by
        rcases List.mem_cons.mp h with h1 | h1
        · exact absurd h1.symm hc
        · exact h1
      obtain ⟨a, b, hab, hna⟩ := ih ht
      exact ⟨c :: a, b, by rw [hab, List.cons_append], by
        intro hm
        rcases List.mem_cons.mp hm with h1 | h1
        · exact hc h1.symm
        · exact hna h1⟩

/-- A replacement pass with a newline-free pattern distributes over the
newlines of the input. -/
theorem replaceAllAppendNL {p r : List Char} (hp : '\n' ∉ p) :
    ∀ (n : Nat) (a b : List Char), a.length ≤ n → '\n' ∉ a →
      replaceAll p r (a ++ '\n' :: b) = replaceAll p r a ++ '\n' :: replaceAll p r b := by
  intro n
  induction n with
  | zero =>
    intro a b hlen _
    have ha : a = [] := List.length_eq_zero.mp (by omega)
    subst ha
    rw [List.nil_append, replaceAll_nil, List.nil_append]
    have hnotm : ¬(p ≠ [] ∧ p.isPrefixOf ('\n' :: b) = true) := by
      rintro ⟨hpne, hpre⟩
      obtain ⟨p0, p1, hp01⟩ := List.exists_cons_of_ne_nil hpne
      rw [List.isPrefixOf_iff_prefix, hp01, List.cons_prefix_cons] at hpre
      exact hp (by rw [hp01, hpre.1]; exact List.mem_cons_self _ _)
    rw [replaceAll_cons_neg r hnotm]
  | succ n ih =>
    intro a b hlen ha
    match a, ha with
    | [], _ =>
      rw [List.nil_append, replaceAll_nil, List.nil_append]
      have hnotm : ¬(p ≠ [] ∧ p.isPrefixOf ('\n' :: b) = true) := by
        rintro ⟨hpne, hpre⟩
        obtain ⟨p0, p1, hp01⟩ := List.exists_cons_of_ne_nil hpne
        rw [List.isPrefixOf_iff_prefix, hp01, List.cons_prefix_cons] at hpre
        exact hp (by rw [hp01, hpre.1]; exact List.mem_cons_self _ _)
      rw [replaceAll_cons_neg r hnotm]
    | c :: a1, ha =>
      have hc : c ≠ '\n' := fun h => ha (by rw [h]; exact List.mem_cons_self _ _)
      have ha1 : '\n' ∉ a1 := fun h => ha (List.mem_cons_of_mem c h)
      by_cases hm : p ≠ [] ∧ p.isPrefixOf (c :: (a1 ++ '\n' :: b)) = true
      · have hpre : p <+: (c :: a1) ++ '\n' :: b :=
          List.isPrefixOf_iff_prefix.mp hm.2
        have hlenp : p.length ≤ (c :: a1).length := by
          by_contra hgt
          rcases prefAppendCases hpre with hp1 | ⟨hp2, hp3⟩
          · exact hgt hp1.length_le
          · have hne : p.drop (c :: a1).length ≠ [] := by
              rw [Ne, List.drop_eq_nil_iff]
              simp only [List.length_cons] at hgt ⊢
              omega
            obtain ⟨d0, ds, hd⟩ := List.exists_cons_of_ne_nil hne
            rw [hd, List.cons_prefix_cons] at hp3
            exact hp (hp3.1 ▸ List.drop_subset _ p (by rw [hd]; exact List.mem_cons_self _ _))
        have hp1 : p <+: c :: a1 := (List.isPrefix_append_of_length hlenp).mp hpre
        have hm2 : p.isPrefixOf (c :: a1) = true := List.isPrefixOf_iff_prefix.mpr hp1
        have hgoal1 : replaceAll p r ((c :: a1) ++ '\n' :: b) =
            r ++ replaceAll p r (List.drop p.length ((c :: a1) ++ '\n' :: b)) :=
          replaceAll_cons_pos r hm.1 hm.2
        rw [hgoal1, replaceAll_cons_pos r hm.1 hm2, List.drop_append_of_le_length hlenp]
        rw [ih (List.drop p.length (c :: a1)) b
          (by
            have hp0 : 0 < p.length := List.length_pos.mpr hm.1
            simp only [List.length_drop, List.length_cons]
            simp only [List.length_cons] at hlen
            omega)
          (fun h => ha (List.drop_subset _ _ h))]
        rw [List.append_assoc]
      · have hm2 : ¬(p ≠ [] ∧ p.isPrefixOf (c :: a1) = true) := by
          rintro ⟨hpne, hpre⟩
          apply hm
          refine ⟨hpne, ?_⟩
          rw [List.isPrefixOf_iff_prefix] at hpre ⊢
          exact hpre.trans (List.prefix_append (c :: a1) ('\n' :: b))
        have hgoal1 : replaceAll p r ((c :: a1) ++ '\n' :: b) =
            c :: replaceAll p r (a1 ++ '\n' :: b) :=
          replaceAll_cons_neg r hm
        rw [hgoal1, replaceAll_cons_neg r hm2]
        rw [ih a1 b (by simp only [List.length_cons] at hlen; omega) ha1, List.cons_append]

/-- `replaceAll` with a newline-free pattern and replacement maps the line
decomposition elementwise. -/
theorem linesOfReplaceAll {p r : List Char} (hp : '\n' ∉ p) (hr : '\n' ∉ r) :
    ∀ (n : Nat) (s : List Char), s.length ≤ n →
      linesOf (replaceAll p r s) = (linesOf s).map (replaceAll p r) := by
  intro n
  induction n with
  | zero =>
    intro s hlen
    have hs : s = [] := List.length_eq_zero.mp (by omega)
    subst hs
    rw [replaceAll_nil]
    simp [linesOf, replaceAll_nil]
  | succ n ih =>
    intro s hlen
    by_cases hnl : '\n' ∈ s
    · obtain ⟨a, b, rfl, hna⟩ := exists_first_nl hnl
      rw [replaceAllAppendNL hp (a.length) a b le_rfl hna]
      rw [linesOf_append_newline b hna]
      rw [linesOf_append_newline (replaceAll p r b) (noNLReplaceAll hna hr)]
      rw [List.map_cons]
      rw [ih b (by simp at hlen; omega)]
    · rw [linesOf_noNL hnl, linesOf_noNL (noNLReplaceAll hnl hr), List.map_cons, List.map_nil]

/-- Computed check: no pattern or replacement of the table contains a newline. -/
def nlOK : Bool :=
  CATEGORY_REPLACEMENTS.all fun rule =>
    !(rule.1.contains '\n') && !(rule.2.contains '\n')

theorem nlOK_holds : nlOK = true := by decide

theorem nlOKProps :
    ∀ rule ∈ CATEGORY_REPLACEMENTS, '\n' ∉ rule.1 ∧ '\n' ∉ rule.2 := by
  have h := nlOK_holds
  rw [nlOK, List.all_eq_true] at h
  intro rule hr
  have h2 := h rule hr
  rw [Bool.and_eq_true, Bool.not_eq_true', Bool.not_eq_true'] at h2
  exact ⟨by simpa using h2.1, by simpa using h2.2⟩

theorem linesOfFoldRules :
    ∀ (rs : List (List Char × List Char)),
      (∀ rule ∈ rs, '\n' ∉ rule.1 ∧ '\n' ∉ rule.2) →
      ∀ (x : List Char),
        linesOf (rs.foldl applyRule x) = (linesOf x).map fun l => rs.foldl applyRule l := by
  intro rs
  induction rs with
  | nil => intro _ x; simp
  | cons r0 rest ih =>
    intro hall x
    rw [List.foldl_cons]
    rw [ih (fun rule hr => hall rule (List.mem_cons_of_mem r0 hr)) (applyRule x r0)]
    have h0 := hall r0 (List.mem_cons_self r0 rest)
    have hx : linesOf (applyRule x r0) = (linesOf x).map (replaceAll r0.1 r0.2) :=
      linesOfReplaceAll h0.1 h0.2 x.length x le_rfl
    rw [hx, List.map_map]
    rfl

/-- The whole rewrite pass maps the line decomposition elementwise. -/
theorem linesOfRewriteAll (s : List Char) :
    linesOf (rewriteAll s) = (linesOf s).map rewriteAll :=
  linesOfFoldRules CATEGORY_REPLACEMENTS nlOKProps s

theorem mapEqSelf {f : List Char → List Char} :
    ∀ {l : List (List Char)}, l.map f = l → ∀ x ∈ l, f x = x := by
  intro l
  induction l with
  | nil => intro _ x hx; exact absurd hx (List.not_mem_nil x)
  | cons a t ih =>
    intro h x hx
    rw [List.map_cons] at h
    have h2 := List.cons.inj h
    rcases List.mem_cons.mp hx with rfl | hxt
    · exact h2.1
    · exact ih h2.2 x hxt

/-! ## Claim theorems -/

/-- C1: the rewrite step is idempotent — for every content, applying the
full substitution table to the output of a first application changes
nothing, i.e. the second pass returns the same text (and hence its
`content != original` test, the `changed` flag, is `false`). -/
theorem C1_rewrite_idempotent (s : List Char) :
    rewriteAll (rewriteAll s) = rewriteAll s :=
  foldIdOfNoOcc CATEGORY_REPLACEMENTS (rewriteAll s) (rewriteAllNoPattern s)

/-- The eleven category tags of the substitution table. -/
def TAGS : List (List Char) :=
  [ "protein".toList, "carbs".toList, "vegetables".toList, "fruits".toList,
    "dairy".toList, "fats".toList, "grains".toList, "legumes".toList,
    "snacks".toList, "supplements".toList, "others".toList ]

/-- The exact quoted literal `"t"` of a tag, quote marks included. -/
def quotedTag (t : List Char) : List Char := '"' :: (t ++ ['"'])

/-- The constant reference `CATEGORIES.t` a rule for tag `t` would emit. -/
def constRef (t : List Char) : List Char := "CATEGORIES.".toList ++ t

/-- The side conditions of `noNewOccurrence` for `q` against a replacement
text `r`, decided by direct substring search. -/
def sideOK2 (q r : List Char) : Bool :=
  !(isSub q r) && !(isSub r q) && noTailPref r q && noTailPref q r

theorem notInfixOfIsSubFalse {p s : List Char} (h : (!(isSub p s)) = true) :
    ¬ p <:+: s := by
  rw [Bool.not_eq_true'] at h
  intro hin
  rw [isSub_iff.mpr hin] at h
  exact absurd h (by simp)

theorem sideOK2Props {q r : List Char} (h : sideOK2 q r = true) :
    ¬ q <:+: r ∧ (∀ w, w <:+ r → w ≠ [] → ¬ w <+: q) ∧
      (∀ w, w <:+ q → w ≠ [] → ¬ w <+: r) ∧ ¬ r <:+: q := by
  rw [sideOK2, Bool.and_eq_true, Bool.and_eq_true, Bool.and_eq_true] at h
  exact ⟨notInfixOfIsSubFalse h.1.1.1, noTailPrefProp h.1.2, noTailPrefProp h.2,
    notInfixOfIsSubFalse h.1.1.2⟩

/-- Computed check: for every tag `t` and every rule of the table, either
the rule's pattern contains the exact quoted literal `"t"` (so the rule
cannot fire on content free of that literal), or the rule's replacement
text satisfies the no-splicing side conditions against both `"t"` and
`CATEGORIES.t` (so applying the rule can introduce neither). -/
def tagGuardOK : Bool :=
  TAGS.all fun t =>
    CATEGORY_REPLACEMENTS.all fun rule =>
      isSub (quotedTag t) rule.1 ||
      (sideOK2 (quotedTag t) rule.2 && sideOK2 (constRef t) rule.2)

set_option maxRecDepth 10000 in
theorem tagGuardOK_holds : tagGuardOK = true := by decide

theorem tagGuardProps :
    ∀ t ∈ TAGS, ∀ rule ∈ CATEGORY_REPLACEMENTS,
      quotedTag t <:+: rule.1 ∨
        (sideOK2 (quotedTag t) rule.2 = true ∧
          sideOK2 (constRef t) rule.2 = true) := by
  have h := tagGuardOK_holds
  rw [tagGuardOK, List.all_eq_true] at h
  intro t ht rule hr
  have h2 := h t ht
  rw [List.all_eq_true] at h2
  have h3 := h2 rule hr
  rw [Bool.or_eq_true, Bool.and_eq_true] at h3
  rcases h3 with h3 | h3
  · exact Or.inl (isSub_iff.mp h3)
  · exact Or.inr h3

/-- Folding any rule list over content free of the quoted literal `qt`
and of the reference `cr` keeps both absent, as long as every rule either
has `qt` inside its pattern (and hence cannot fire) or satisfies the
no-splicing side conditions for both strings. -/
theorem foldTagGuard {qt cr : List Char} :
    ∀ (rs : List (List Char × List Char)) (x : List Char),
      (∀ rule ∈ rs, qt <:+: rule.1 ∨
        ((¬ qt <:+: rule.2 ∧ (∀ w, w <:+ rule.2 → w ≠ [] → ¬ w <+: qt) ∧
          (∀ w, w <:+ qt → w ≠ [] → ¬ w <+: rule.2) ∧ ¬ rule.2 <:+: qt) ∧
         (¬ cr <:+: rule.2 ∧ (∀ w, w <:+ rule.2 → w ≠ [] → ¬ w <+: cr) ∧
          (∀ w, w <:+ cr → w ≠ [] → ¬ w <+: rule.2) ∧ ¬ rule.2 <:+: cr))) →
      ¬ qt <:+: x → ¬ cr <:+: x →
      ¬ qt <:+: rs.foldl applyRule x ∧ ¬ cr <:+: rs.foldl applyRule x := by
  intro rs
  induction rs with
  | nil => intro x _ h1 h2; exact ⟨h1, h2⟩
  | cons r0 rest ih =>
    intro x hall h1 h2
    rw [List.foldl_cons]
    rcases hall r0 (List.mem_cons_self r0 rest) with hA | ⟨hB1, hB2⟩
    · have hnp : ¬ r0.1 <:+: x := fun hinf => h1 (hA.trans hinf)
      have hx : applyRule x r0 = x := replaceAllEqSelf r0.2 hnp
      rw [hx]
      exact ih x (fun rule hr => hall rule (List.mem_cons_of_mem r0 hr)) h1 h2
    · obtain ⟨c1, c2, c3, c4⟩ := hB1
      obtain ⟨d1, d2, d3, d4⟩ := hB2
      exact ih (applyRule x r0) (fun rule hr => hall rule (List.mem_cons_of_mem r0 hr))
        (noNewOccurrence c1 c2 c3 c4 h1) (noNewOccurrence d1 d2 d3 d4 h2)

/-- C4: substitution is context-bounded — a rule fires only on an exact,
full-literal match bounded by the quote marks and the surrounding
operator/parenthesis tokens of its pattern.  Consequently, for every
content and every category tag `t`: if the exact quoted literal `"t"`
never occurs in the content (i.e. every occurrence of the tag sits inside
a longer string literal or identifier, such as `"fruits_extra"` for
`fruits`), and the content does not already mention `CATEGORIES.t`, then
the full rewrite — with every other rule free to fire — never rewrites
the embedded tag: `CATEGORIES.t` does not occur in the output. -/
theorem C4_context_bounded (s t : List Char) (ht : t ∈ TAGS)
    (h1 : ¬ quotedTag t <:+: s) (h2 : ¬ constRef t <:+: s) :
    ¬ constRef t <:+: rewriteAll s := by
  have hfold := foldTagGuard CATEGORY_REPLACEMENTS s ?_ h1 h2
  · exact hfold.2
  · intro rule hr
    rcases tagGuardProps t ht rule hr with hA | ⟨hq, hc⟩
    · exact Or.inl hA
    · exact Or.inr ⟨sideOK2Props hq, sideOK2Props hc⟩

set_option maxRecDepth 100000 in
/-- Witness for C4: a content in which `fruits` occurs only inside the
longer literal `"fruits_extra"` while the `=== "protein"` rule genuinely
fires: the rewrite changes the content, yet never introduces
`CATEGORIES.fruits`. -/
theorem C4_context_bounded_witness :
    ("fruits".toList ∈ TAGS) ∧
    (¬ quotedTag "fruits".toList <:+:
      "if (a === \"fruits_extra\" && b === \"protein\") return c;".toList) ∧
    (¬ constRef "fruits".toList <:+:
      "if (a === \"fruits_extra\" && b === \"protein\") return c;".toList) ∧
    rewriteAll "if (a === \"fruits_extra\" && b === \"protein\") return c;".toList ≠
      "if (a === \"fruits_extra\" && b === \"protein\") return c;".toList ∧
    ¬ constRef "fruits".toList <:+:
      rewriteAll "if (a === \"fruits_extra\" && b === \"protein\") return c;".toList := by
  have ht : "fruits".toList ∈ TAGS := by decide
  have h1 : ¬ quotedTag "fruits".toList <:+:
      "if (a === \"fruits_extra\" && b === \"protein\") return c;".toList := by decide
  have h2 : ¬ constRef "fruits".toList <:+:
      "if (a === \"fruits_extra\" && b === \"protein\") return c;".toList := by decide
  exact ⟨ht, h1, h2, by decide, C4_context_bounded _ _ ht h1 h2⟩

/-- C7: whenever the rewrite pass changed the content (`changed = true`),
the resulting content contains the constant identifier `CATEGORIES`. -/
theorem C7_changed_references_const (s : List Char) (h : rewriteAll s ≠ s) :
    catIdent <:+: rewriteAll s := by
  rcases foldChangedInfixCat CATEGORY_REPLACEMENTS s catOKProps with he | hi
  · exact absurd he h
  · exact hi

set_option maxRecDepth 40000 in
/-- Witness for C7 at a concrete changed content. -/
theorem C7_changed_references_const_witness :
    rewriteAll "a === \"protein\";".toList ≠ "a === \"protein\";".toList ∧
    catIdent <:+: rewriteAll "a === \"protein\";".toList := by
  have h : rewriteAll "a === \"protein\";".toList ≠ "a === \"protein\";".toList := by
    decide
  exact ⟨h, C7_changed_references_const _ h⟩

/-! ### Import-path classification (C5) -/

/-- Modelled from the spec's wording of the classification: if any path
segment belongs to the six-element family the two-levels-up form is chosen;
otherwise a `components`/`pages` segment selects the three-levels-up form;
otherwise the one-level-up form. -/
def resolveImportPathSpec (parts : List String) : List Char :=
  if "tests" ∈ parts ∨ "logic" ∈ parts ∨ "utils" ∈ parts ∨ "export" ∈ parts ∨
      "premium" ∈ parts ∨ "storage" ∈ parts then IMPORT_STATEMENT_NESTED
  else if "components" ∈ parts ∨ "pages" ∈ parts then IMPORT_STATEMENT_DEEP
  else IMPORT_STATEMENT

/-- C5: the import-path classification of `get_import_statement` agrees,
for every segment list, with the spec's description: any segment among
`tests`, `logic`, `utils`, `export`, `premium`, `storage` yields the
two-levels-up import (`IMPORT_STATEMENT_NESTED`); otherwise a `components`
or `pages` segment yields the three-levels-up import
(`IMPORT_STATEMENT_DEEP`); otherwise the one-level-up import
(`IMPORT_STATEMENT`).  In particular the first family wins when segments of
both families are present. -/
theorem C5_path_classification (parts : List String) :
    get_import_statement parts = resolveImportPathSpec parts := by
  rw [get_import_statement, resolveImportPathSpec]
  split_ifs <;> first | rfl | tauto

/-! ### Import insertion facts (C3, C6, C10) -/

theorem infixAppendRightExt {l x : List Char} (y : List Char) (h : l <:+: x) :
    l <:+: x ++ y := by
  obtain ⟨u, v, rfl⟩ := h
  exact ⟨u, v ++ y, by simp⟩

theorem stmtVariants (parts : List String) :
    get_import_statement parts = IMPORT_STATEMENT ∨
    get_import_statement parts = IMPORT_STATEMENT_NESTED ∨
    get_import_statement parts = IMPORT_STATEMENT_DEEP := by
  rw [get_import_statement]
  split_ifs <;> first
    | exact Or.inl rfl
    | exact Or.inr (Or.inl rfl)
    | exact Or.inr (Or.inr rfl)

theorem canonicalInRstripStmt (parts : List String) :
    canonicalImport <:+: rstrip (get_import_statement parts) := by
  rcases stmtVariants parts with h | h | h <;> rw [h] <;> decide

theorem canonicalInStmt (parts : List String) :
    canonicalImport <:+: get_import_statement parts := by
  rcases stmtVariants parts with h | h | h <;> rw [h] <;> decide

theorem stmtNeNil (parts : List String) : get_import_statement parts ≠ [] := by
  rcases stmtVariants parts with h | h | h <;> rw [h] <;> decide

theorem stmtLineNoNL (parts : List String) :
    '\n' ∉ rstrip (get_import_statement parts) := by
  rcases stmtVariants parts with h | h | h <;> rw [h] <;> decide

theorem stmtSplit (parts : List String) :
    get_import_statement parts =
      rstrip (get_import_statement parts) ++ ['\n'] := by
  rcases stmtVariants parts with h | h | h <;> rw [h] <;> decide

theorem insertMem {stmt : List Char} :
    ∀ {ls ls' : List (List Char)},
      insertAfterFirstImport stmt ls = some ls' → stmt ∈ ls' := by
  intro ls
  induction ls with
  | nil => intro ls' h; exact absurd h (by rw [insertAfterFirstImport]; simp)
  | cons l rest ih =>
    intro ls' h
    rw [insertAfterFirstImport] at h
    by_cases hl : startsImportKw l
    · rw [if_pos hl] at h
      rw [← Option.some_inj.mp h]
      exact List.mem_cons_of_mem l (List.mem_cons_self _ _)
    · rw [if_neg hl] at h
      match hrec : insertAfterFirstImport stmt rest with
      | none => rw [hrec] at h; exact absurd h (by simp)
      | some ls2 =>
        rw [hrec] at h
        simp only [Option.map_some', Option.some.injEq] at h
        rw [← h]
        exact List.mem_cons_of_mem l (ih hrec)

theorem insertSomeIdx {stmt : List Char} :
    ∀ {ls ls' : List (List Char)},
      insertAfterFirstImport stmt ls = some ls' →
      ∃ k, k ≤ ls.length ∧ ls' = ls.insertIdx k stmt := by
  intro ls
  induction ls with
  | nil => intro ls' h; exact absurd h (by rw [insertAfterFirstImport]; simp)
  | cons l rest ih =>
    intro ls' h
    rw [insertAfterFirstImport] at h
    by_cases hl : startsImportKw l
    · rw [if_pos hl] at h
      refine ⟨1, by simp, ?_⟩
      rw [← Option.some_inj.mp h, List.insertIdx_succ_cons, List.insertIdx_zero]
    · rw [if_neg hl] at h
      match hrec : insertAfterFirstImport stmt rest with
      | none => rw [hrec] at h; exact absurd h (by simp)
      | some ls2 =>
        rw [hrec] at h
        simp only [Option.map_some', Option.some.injEq] at h
        obtain ⟨k, hk, hls2⟩ := ih hrec
        refine ⟨k + 1, by simp only [List.length_cons]; omega, ?_⟩
        rw [← h, hls2, List.insertIdx_succ_cons]

theorem joinLinesInsertIdxLen (stmt : List Char) :
    ∀ (ls : List (List Char)) (k : Nat), ls ≠ [] → k ≤ ls.length →
      (joinLines (ls.insertIdx k stmt)).length =
        (joinLines ls).length + stmt.length + 1 := by
  intro ls
  induction ls with
  | nil => intro k h _; exact absurd rfl h
  | cons l rest ih =>
    intro k _ hk
    match k with
    | 0 =>
      rw [List.insertIdx_zero, joinLines_cons₂]
      simp only [List.length_append, List.length_cons]
      omega
    | k + 1 =>
      rw [List.insertIdx_succ_cons]
      match rest with
      | [] =>
        have hk0 : k = 0 := by
          simp only [List.length_cons, List.length_nil] at hk; omega
        subst hk0
        rw [List.insertIdx_zero, joinLines_cons₂, joinLines_single, joinLines_single]
        simp only [List.length_append, List.length_cons]
        omega
      | r1 :: rest' =>
        have hlen := ih k (by simp) (by simp only [List.length_cons] at hk ⊢; omega)
        have hne : (r1 :: rest').insertIdx k stmt ≠ [] := by
          match k with
          | 0 => rw [List.insertIdx_zero]; simp
          | k + 1 => rw [List.insertIdx_succ_cons]; simp
        obtain ⟨x, xs, hxx⟩ := List.exists_cons_of_ne_nil hne
        rw [hxx, joinLines_cons₂, ← hxx, joinLines_cons₂]
        simp only [List.length_append, List.length_cons]
        omega

theorem insertSomeLen {stmt : List Char} {ls ls' : List (List Char)}
    (h : insertAfterFirstImport stmt ls = some ls') :
    (joinLines ls').length = (joinLines ls).length + stmt.length + 1 := by
  obtain ⟨k, hk, rfl⟩ := insertSomeIdx h
  match ls, h with
  | [], h => exact absurd h (by rw [insertAfterFirstImport]; simp)
  | l :: rest, h => exact joinLinesInsertIdxLen stmt (l :: rest) k (by simp) hk

theorem insertNoneOfAll {stmt : List Char} :
    ∀ {ls : List (List Char)}, (∀ l ∈ ls, startsImportKw l = false) →
      insertAfterFirstImport stmt ls = none := by
  intro ls
  induction ls with
  | nil => intro _; rw [insertAfterFirstImport]
  | cons l rest ih =>
    intro h
    rw [insertAfterFirstImport, if_neg (by rw [h l (List.mem_cons_self _ _)]; simp),
      ih (fun x hx => h x (List.mem_cons_of_mem l hx))]
    rfl

theorem insertAtFirstIdx {stmt : List Char} :
    ∀ {ls : List (List Char)} {i : Nat} (hi : i < ls.length),
      startsImportKw (ls.get ⟨i, hi⟩) = true →
      (∀ j (hj : j < i), startsImportKw (ls.get ⟨j, lt_trans hj hi⟩) = false) →
      insertAfterFirstImport stmt ls = some (ls.insertIdx (i + 1) stmt) := by
  intro ls
  induction ls with
  | nil => intro i hi; exact absurd hi (by simp)
  | cons l rest ih =>
    intro i hi himp hprev
    match i with
    | 0 =>
      rw [insertAfterFirstImport, if_pos (by simpa using himp)]
      rw [List.insertIdx_succ_cons, List.insertIdx_zero]
    | i + 1 =>
      have h0 : startsImportKw l = false := by
        have h00 := hprev 0 (Nat.succ_pos i)
        simpa using h00
      rw [insertAfterFirstImport, if_neg (by rw [h0]; simp)]
      rw [ih (by simpa using hi) (by simpa using himp)
        (fun j hj => by
          have hjj := hprev (j + 1) (by omega)
          simpa using hjj)]
      rw [List.insertIdx_succ_cons]
      rfl

theorem condTrueIff {content : List Char} :
    (isSub catIdent content && !(isSub canonicalImport content)) = true ↔
      (catIdent <:+: content ∧ ¬ canonicalImport <:+: content) := by
  rw [Bool.and_eq_true, Bool.not_eq_true', Bool.eq_false_iff, Ne, isSub_iff, isSub_iff]

theorem addChanges {content : List Char} {parts : List String}
    (h1 : catIdent <:+: content) (h2 : ¬ canonicalImport <:+: content) :
    add_import_if_needed content parts ≠ content := by
  rw [add_import_if_needed, if_pos (condTrueIff.mpr ⟨h1, h2⟩)]
  cases hrec : insertAfterFirstImport (rstrip (get_import_statement parts))
      (linesOf content) with
  | some ls =>
    intro heq
    have heq2 : joinLines ls = content := heq
    have hlen := insertSomeLen hrec
    rw [joinLines_linesOf content, heq2] at hlen
    omega
  | none =>
    intro heq
    have heq2 : get_import_statement parts ++ content = content := heq
    have hl : (get_import_statement parts ++ content).length = content.length := by
      rw [heq2]
    rw [List.length_append] at hl
    have hpos : 0 < (get_import_statement parts).length :=
      List.length_pos.mpr (stmtNeNil parts)
    omega

theorem canonicalInAddOutput {content : List Char} {parts : List String}
    (h : add_import_if_needed content parts ≠ content) :
    canonicalImport <:+: add_import_if_needed content parts := by
  rw [add_import_if_needed] at h ⊢
  by_cases hcond : (isSub catIdent content && !(isSub canonicalImport content)) = true
  · rw [if_pos hcond] at h ⊢
    cases hrec : insertAfterFirstImport (rstrip (get_import_statement parts))
        (linesOf content) with
    | some ls =>
      show canonicalImport <:+: joinLines ls
      exact (canonicalInRstripStmt parts).trans (infix_joinLines (insertMem hrec))
    | none =>
      show canonicalImport <:+: get_import_statement parts ++ content
      exact infixAppendRightExt content (canonicalInStmt parts)
  · rw [if_neg hcond] at h
    exact absurd rfl h

/-- C3: `ensureImport` is idempotent and never duplicates an import — a
second application to any output is the identity, and content already
containing the canonical import spelling is returned unchanged. -/
theorem C3_ensure_import_idempotent (content : List Char) (parts : List String) :
    add_import_if_needed (add_import_if_needed content parts) parts =
      add_import_if_needed content parts ∧
    (canonicalImport <:+: content → add_import_if_needed content parts = content) := by
  constructor
  · by_cases h : add_import_if_needed content parts = content
    · rw [h]
      exact h
    · have hcan := canonicalInAddOutput h
      rw [add_import_if_needed, if_neg (fun hc => (condTrueIff.mp hc).2 hcan)]
  · intro h
    rw [add_import_if_needed, if_neg (fun hc => (condTrueIff.mp hc).2 h)]

/-- Witness for C3: a content already containing the canonical import
spelling is returned unchanged. -/
theorem C3_ensure_import_idempotent_witness :
    canonicalImport <:+: ("const a = 1; // import " ++ "{ CATEGORIES } is here").toList ∧
    add_import_if_needed ("const a = 1; // import " ++ "{ CATEGORIES } is here").toList
      ["src", "x.ts"] =
      ("const a = 1; // import " ++ "{ CATEGORIES } is here").toList := by
  have h : canonicalImport <:+:
      ("const a = 1; // import " ++ "{ CATEGORIES } is here").toList := by decide
  exact ⟨h, (C3_ensure_import_idempotent _ ["src", "x.ts"]).2 h⟩

/-- C6 counterexample: in a content where `CATEGORIES` occurs only inside
the longer identifier `MYCATEGORIES` (never as a standalone token),
`add_import_if_needed` nevertheless inserts the import — the check is a
plain substring test, not a token test — so the claim's "returns the
content unchanged" fails. -/
theorem C6_counterexample :
    add_import_if_needed "const MYCATEGORIES = 1;".toList ["src", "x.ts"] =
      IMPORT_STATEMENT ++ "const MYCATEGORIES = 1;".toList ∧
    IMPORT_STATEMENT ++ "const MYCATEGORIES = 1;".toList ≠
      "const MYCATEGORIES = 1;".toList := by
  constructor
  · decide
  · decide

/-- C6 amended: the insertion check of `ensureImport` is a plain substring
test on the characters `CATEGORIES`: for every content and path, the
content is returned unchanged exactly when `CATEGORIES` does not occur as
a substring at all (standalone token or not) or the canonical import
spelling is already present; otherwise an import is inserted and the
content changes. -/
theorem C6_substring_not_token (content : List Char) (parts : List String) :
    add_import_if_needed content parts = content ↔
      (¬ catIdent <:+: content ∨ canonicalImport <:+: content) := by
  constructor
  · intro h
    by_contra hcon
    push_neg at hcon
    exact addChanges hcon.1 hcon.2 h
  · intro h
    rw [add_import_if_needed, if_neg]
    intro hc
    obtain ⟨h1, h2⟩ := condTrueIff.mp hc
    rcases h with h | h
    · exact h h1
    · exact h2 h

/-- C10: `ensureImport` either returns the content exactly unchanged, or
returns content whose line sequence is the original line sequence with
exactly one new line — the resolved import statement — inserted at a
single position; every original line is preserved unmodified and in
order. -/
theorem C10_insert_single_line (content : List Char) (parts : List String) :
    add_import_if_needed content parts = content ∨
      ∃ k, linesOf (add_import_if_needed content parts) =
        (linesOf content).insertIdx k (rstrip (get_import_statement parts)) := by
  rw [add_import_if_needed]
  by_cases hcond : (isSub catIdent content && !(isSub canonicalImport content)) = true
  · rw [if_pos hcond]
    right
    cases hrec : insertAfterFirstImport (rstrip (get_import_statement parts))
        (linesOf content) with
    | some ls =>
      obtain ⟨k, hk, rfl⟩ := insertSomeIdx hrec
      refine ⟨k, ?_⟩
      show linesOf (joinLines ((linesOf content).insertIdx k
        (rstrip (get_import_statement parts)))) =
          (linesOf content).insertIdx k (rstrip (get_import_statement parts))
      rw [linesOf_joinLines ?hne ?hfree]
      case hne =>
        apply List.ne_nil_of_length_pos
        rw [List.length_insertIdx k _ hk]
        omega
      case hfree =>
        intro l hl
        rcases (List.mem_insertIdx hk).mp hl with rfl | hmem
        · exact stmtLineNoNL parts
        · exact mem_linesOf_noNL content l hmem
    | none =>
      refine ⟨0, ?_⟩
      show linesOf (get_import_statement parts ++ content) =
        (linesOf content).insertIdx 0 (rstrip (get_import_statement parts))
      conv_lhs => rw [stmtSplit parts]
      rw [List.append_assoc,
        show (['\n'] ++ content) = '\n' :: content from rfl,
        linesOf_append_newline content (stmtLineNoNL parts), List.insertIdx_zero]
  · rw [if_neg hcond]
    left
    rfl

/-! ### Orchestration claims (C8, C9) -/

/-- C8: when the substitution pass leaves the content unchanged,
`update_file` performs no write and no import insertion and returns
`False` — in particular a file already referencing `CATEGORIES` but
lacking the import never gets the import added, because
`add_import_if_needed` is only reached behind the `changed` test. -/
theorem C8_unchanged_no_write (content : List Char) (parts : List String)
    (w : List Char → Except String Unit) (h : rewriteAll content = content) :
    update_file (Except.ok content) w parts = ⟨false, none, none⟩ := by
  rw [update_file, update_file_attempt]
  simp [bind, Except.bind, pure, Except.pure, h]

set_option maxRecDepth 40000 in
/-- Witness for C8 at a content without any pattern occurrence. -/
theorem C8_unchanged_no_write_witness :
    rewriteAll "const x = 1;".toList = "const x = 1;".toList ∧
    update_file (Except.ok "const x = 1;".toList) (fun _ => Except.ok ())
      ["src", "x.ts"] = ⟨false, none, none⟩ := by
  have h : rewriteAll "const x = 1;".toList = "const x = 1;".toList := by decide
  exact ⟨h, C8_unchanged_no_write _ _ _ h⟩

/-- C9: an I/O failure while reading (or writing) a single file is caught
inside `update_file`: the error is reported with its cause, the function
returns `False` (so the file is not counted as updated), nothing is
written, and — `update_file` being total — the batch loop of `main`
still processes every candidate file. -/
theorem C9_io_error_caught (e : String) (w : List Char → Except String Unit)
    (parts : List String) (content : List Char) (files : List BatchFile) :
    update_file (Except.error e) w parts = ⟨false, none, some e⟩ ∧
    (rewriteAll content ≠ content →
      w (add_import_if_needed (rewriteAll content) parts) = Except.error e →
      update_file (Except.ok content) w parts = ⟨false, none, some e⟩) ∧
    (runBatch files).length = files.length := by
  refine ⟨?_, ?_, ?_⟩
  · rw [update_file, update_file_attempt]
    rfl
  · intro hch hw
    rw [update_file, update_file_attempt]
    simp [bind, Except.bind, pure, Except.pure, hch, hw]
  · rw [runBatch, List.length_map]

set_option maxRecDepth 40000 in
/-- Witness for C9: a failing write on a changed file is caught and
reported, and the file is not counted as updated. -/
theorem C9_io_error_caught_witness :
    rewriteAll "a === \"protein\";".toList ≠ "a === \"protein\";".toList ∧
    update_file (Except.ok "a === \"protein\";".toList)
      (fun _ => Except.error "disk full") ["src", "x.ts"] =
      ⟨false, none, some "disk full"⟩ := by
  have h : rewriteAll "a === \"protein\";".toList ≠ "a === \"protein\";".toList := by
    decide
  exact ⟨h,
    (C9_io_error_caught "disk full" (fun _ => Except.error "disk full")
      ["src", "x.ts"] "a === \"protein\";".toList []).2.1 h rfl⟩

/-! ### Scenario A (C2) -/

theorem changedOfLineChanged {content line : List Char}
    (hmem : line ∈ linesOf content) (hne : rewriteAll line ≠ line) :
    rewriteAll content ≠ content := by
  intro heq
  have hl := linesOfRewriteAll content
  rw [heq] at hl
  exact hne (mapEqSelf hl.symm line hmem)

/-- C2 (amended): for every content one of whose lines is
`if (item.category === "protein") return true;`, and in which the
rewritten content does not already contain the canonical import spelling,
the rewrite turns that line into
`if (item.category === CATEGORIES.protein) return true;` (so the content
changed and the file is written), and the import resolution inserts the
resolved import statement directly after the **first** line starting with
`import ` — not the last — or prepends it (with a newline) at the very
top when no line starts with `import `. -/
theorem C2_protein_line_and_import_position (content : List Char) (parts : List String)
    (hline : "if (item.category === \"protein\") return true;".toList ∈ linesOf content)
    (hnoimp : ¬ canonicalImport <:+: rewriteAll content) :
    "if (item.category === CATEGORIES.protein) return true;".toList
        ∈ linesOf (rewriteAll content) ∧
    rewriteAll content ≠ content ∧
    ((∀ l ∈ linesOf (rewriteAll content), startsImportKw l = false) →
      add_import_if_needed (rewriteAll content) parts =
        get_import_statement parts ++ rewriteAll content) ∧
    (∀ i, ∀ hi : i < (linesOf (rewriteAll content)).length,
      startsImportKw ((linesOf (rewriteAll content)).get ⟨i, hi⟩) = true →
      (∀ j, ∀ hj : j < i, startsImportKw ((linesOf (rewriteAll content)).get
        ⟨j, lt_trans hj hi⟩) = false) →
      linesOf (add_import_if_needed (rewriteAll content) parts) =
        (linesOf (rewriteAll content)).insertIdx (i + 1)
          (rstrip (get_import_statement parts))) := by
  have hLrw : rewriteAll "if (item.category === \"protein\") return true;".toList =
      "if (item.category === CATEGORIES.protein) return true;".toList := by decide
  have hmem : "if (item.category === CATEGORIES.protein) return true;".toList
      ∈ linesOf (rewriteAll content) := by
    rw [linesOfRewriteAll]
    exact hLrw ▸ List.mem_map_of_mem rewriteAll hline
  have hchanged : rewriteAll content ≠ content :=
    changedOfLineChanged hline (by rw [hLrw]; decide)
  have hcat : catIdent <:+: rewriteAll content := by
    have h1 : catIdent <:+:
        "if (item.category === CATEGORIES.protein) return true;".toList := by decide
    have h2 := infix_joinLines hmem
    rw [joinLines_linesOf] at h2
    exact h1.trans h2
  have hcond : (isSub catIdent (rewriteAll content) &&
      !(isSub canonicalImport (rewriteAll content))) = true :=
    condTrueIff.mpr ⟨hcat, hnoimp⟩
  refine ⟨hmem, hchanged, ?_, ?_⟩
  · intro hall
    rw [add_import_if_needed, if_pos hcond, insertNoneOfAll hall]
  · intro i hi himp hprev
    have hadd : add_import_if_needed (rewriteAll content) parts =
        joinLines ((linesOf (rewriteAll content)).insertIdx (i + 1)
          (rstrip (get_import_statement parts))) := by
      rw [add_import_if_needed, if_pos hcond, insertAtFirstIdx hi himp hprev]
    rw [hadd, linesOf_joinLines ?hne ?hfree]
    case hne =>
      apply List.ne_nil_of_length_pos
      rw [List.length_insertIdx (i + 1) _ (by omega)]
      omega
    case hfree =>
      intro l hl
      rcases (List.mem_insertIdx (by omega)).mp hl with rfl | hmem2
      · exact stmtLineNoNL parts
      · exact mem_linesOf_noNL _ l hmem2

set_option maxRecDepth 100000 in
/-- Witness for C2: a file with one import line followed by the protein
comparison line; the rewritten line appears and the import is inserted
directly after the import line (position 1). -/
theorem C2_protein_line_and_import_position_witness :
    ("if (item.category === \"protein\") return true;".toList ∈
      linesOf ("import R;\nif (item.category === \"protein\") return true;").toList) ∧
    (¬ canonicalImport <:+:
      rewriteAll ("import R;\nif (item.category === \"protein\") return true;").toList) ∧
    linesOf (add_import_if_needed
        (rewriteAll ("import R;\nif (item.category === \"protein\") return true;").toList)
        ["src", "x.ts"]) =
      (linesOf (rewriteAll
          ("import R;\nif (item.category === \"protein\") return true;").toList)).insertIdx 1
        (rstrip (get_import_statement ["src", "x.ts"])) := by
  have h1 : "if (item.category === \"protein\") return true;".toList ∈
      linesOf ("import R;\nif (item.category === \"protein\") return true;").toList := by
    decide
  have h2 : ¬ canonicalImport <:+:
      rewriteAll ("import R;\nif (item.category === \"protein\") return true;").toList := by
    decide
  exact ⟨h1, h2,
    (C2_protein_line_and_import_position _ ["src", "x.ts"] h1 h2).2.2.2 0 (by decide)
      (by decide) (fun j hj => absurd hj (Nat.not_lt_zero j))⟩

set_option maxRecDepth 100000 in
/-- C2 counterexample: with two import lines ahead of the protein line,
the script inserts the resolved import directly after the **first** of
the import lines, not after the last one as the claim states. -/
theorem C2_counterexample :
    linesOf (add_import_if_needed
        (rewriteAll ("import a;\nimport b;\nif (item.category === \"protein\") return true;").toList)
        ["src", "x.ts"]) =
      ["import a;".toList,
       rstrip (get_import_statement ["src", "x.ts"]),
       "import b;".toList,
       "if (item.category === CATEGORIES.protein) return true;".toList] ∧
    linesOf (add_import_if_needed
        (rewriteAll ("import a;\nimport b;\nif (item.category === \"protein\") return true;").toList)
        ["src", "x.ts"]) ≠
      ["import a;".toList,
       "import b;".toList,
       rstrip (get_import_statement ["src", "x.ts"]),
       "if (item.category === CATEGORIES.protein) return true;".toList] := by
  constructor
  · decide
  · decide

end UpdateCategories
